import Mathlib

/-!
Verification of the pipeworkmc-codec encode/decode core.

Shallow embedding of the Rust sources:
* `src/decode/mod.rs` — the `DecodeIter` cursor and the prefixed-packet
  decoding blanket implementation;
* `src/varint.rs` — the variable-length integer codec (`VarIntType` for a
  `w`-bit integer, `VarInt<T>`'s `PacketDecode`/`PacketEncode` impls);
* `src/decode/array.rs` — the `[T; N]` decoder with its cleanup loop;
* `src/decode/num.rs` — fixed-width integer decoders (used as element codecs);
* `src/encode/mod.rs` — the `EncodeBuf` write head;
* `src/meta.rs` — `PacketState` and `AtomicPacketState`.

Machine integers are modelled as `Nat` with explicit masking/`% 2^w` where the
Rust code relies on fixed-width wraparound; bytes are `Nat` (the decoders only
ever receive values below 256, but the definitions are total). Fallible
operations return `Except`, paired with the cursor state after the call, since
the Rust methods mutate the cursor in place even when they fail.
-/

deriving instance DecidableEq for Except

/-- Mirrors `IncompleteDecodeError` (src/decode/mod.rs): the byte iterator did
not provide enough data. -/
inductive IncompleteDecodeError where
  | mk
deriving DecidableEq, Repr

/-- Mirrors `DecodeIter` (src/decode/mod.rs): the remaining bytes of the
underlying `ExactSizeIterator` plus the `head` counter of consumed bytes. -/
structure DecodeIter where
  iter : List Nat
  head : Nat
deriving DecidableEq, Repr

/-- Mirrors `Iterator::next` for `DecodeIter`: pulls one byte from the
underlying iterator and advances `head`. -/
def DecodeIter.next : DecodeIter → Option Nat × DecodeIter
  | ⟨[], h⟩ => (none, ⟨[], h⟩)
  | ⟨b :: rest, h⟩ => (some b, ⟨rest, h + 1⟩)

/-- Mirrors `DecodeIter::read`: a single byte, or `Incomplete`; `head`
advances only when a byte was produced. -/
def DecodeIter.read : DecodeIter → Except IncompleteDecodeError Nat × DecodeIter
  | ⟨[], h⟩ => (.error .mk, ⟨[], h⟩)
  | ⟨b :: rest, h⟩ => (.ok b, ⟨rest, h + 1⟩)

/-- Helper for the byte-pulling loops of `read_vec`, `read_arr`, `read_buf`
and `skip`: pull exactly `n` bytes off the list, or `none` when the list runs
out first (in which case the Rust iterator has been fully drained). -/
def takeExact : Nat → List Nat → Option (List Nat × List Nat)
  | 0, l => some ([], l)
  | _ + 1, [] => none
  | n + 1, b :: rest =>
    match takeExact n rest with
    | some (v, rem) => some (b :: v, rem)
    | none => none

/-- Mirrors `DecodeIter::read_vec`: pull `count` bytes into a vector; on
success `head += count`; on failure the loop has drained the source but the
`self.head += count` line is never reached, so `head` is unchanged. -/
def DecodeIter.readVec (it : DecodeIter) (count : Nat) :
    Except IncompleteDecodeError (List Nat) × DecodeIter :=
  match takeExact count it.iter with
  | some (v, rem) => (.ok v, ⟨rem, it.head + count⟩)
  | none => (.error .mk, ⟨[], it.head⟩)

/-- Mirrors `DecodeIter::read_arr::<N>` (via `Iterator::next_chunk`): pull `n`
bytes into a fixed array; on failure the chunk pull has drained the source and
`head` is unchanged. -/
def DecodeIter.readArr (it : DecodeIter) (n : Nat) :
    Except IncompleteDecodeError (List Nat) × DecodeIter :=
  match takeExact n it.iter with
  | some (v, rem) => (.ok v, ⟨rem, it.head + n⟩)
  | none => (.error .mk, ⟨[], it.head⟩)

/-- Mirrors `DecodeIter::read_buf` on a buffer of length `bufLen`: the result
list is the filled buffer contents. `head` advances only on success. -/
def DecodeIter.readBuf (it : DecodeIter) (bufLen : Nat) :
    Except IncompleteDecodeError (List Nat) × DecodeIter :=
  match takeExact bufLen it.iter with
  | some (v, rem) => (.ok v, ⟨rem, it.head + bufLen⟩)
  | none => (.error .mk, ⟨[], it.head⟩)

/-- Mirrors `DecodeIter::skip`: discard `count` bytes; `head` advances only
when all `count` bytes were produced. -/
def DecodeIter.skip (it : DecodeIter) (count : Nat) :
    Except IncompleteDecodeError Unit × DecodeIter :=
  match takeExact count it.iter with
  | some (_, rem) => (.ok (), ⟨rem, it.head + count⟩)
  | none => (.error .mk, ⟨[], it.head⟩)

/-- Mirrors `VarIntDecodeError` (src/varint.rs). -/
inductive VarIntDecodeError where
  | incomplete
  | tooLong
deriving DecidableEq, Repr

/-- Mirrors the loop of `VarIntType::decode` (src/varint.rs, signed impl) for
a `w`-bit integer type, iterating over the bytes of a `DecodeIter` (the `iter`
argument of the Rust function is the `DecodeIter` itself, so every byte pulled
advances `head`). `value`, `shift` and `consumed` are the loop's mutable
state; the `% 2 ^ w` keeps the `<<` within the fixed width, as the Rust shift
on a `w`-bit integer does. Returns the result together with the `DecodeIter`
as the loop leaves it. -/
def varIntLoop (w : Nat) : List Nat → Nat → Nat → Nat → Nat →
    Except VarIntDecodeError (Nat × Nat) × DecodeIter
  | [], _, _, _, h => (.error .incomplete, ⟨[], h⟩)
  | b :: rest, value, shift, consumed, h =>
    let value := value ||| (((b &&& 127) <<< shift) % 2 ^ w)
    if b &&& 128 == 0 then
      (.ok (value, consumed + 1), ⟨rest, h + 1⟩)
    else if shift + 7 > w then
      (.error .tooLong, ⟨rest, h + 1⟩)
    else
      varIntLoop w rest value (shift + 7) (consumed + 1) (h + 1)

/-- Mirrors `VarIntType::decode` for a `w`-bit integer: run the loop from
`value = 0`, `shift = 0`, `consumed = 0`. -/
def varIntTypeDecode (w : Nat) (it : DecodeIter) :
    Except VarIntDecodeError (Nat × Nat) × DecodeIter :=
  varIntLoop w it.iter 0 0 0 it.head

/-- Mirrors `impl PacketDecode for VarInt<T>` (src/varint.rs lines 147-161):
`T::decode(&mut*buf)` pulls its bytes through the `DecodeIter` itself, and the
subsequent `buf.skip(consumed)?` then pulls `consumed` further bytes. A `skip`
failure surfaces as `Incomplete` through the `From` impl. -/
def varIntPacketDecode (w : Nat) (it : DecodeIter) :
    Except VarIntDecodeError Nat × DecodeIter :=
  match varIntTypeDecode w it with
  | (.ok (value, consumed), it') =>
    match it'.skip consumed with
    | (.ok _, it'') => (.ok value, it'')
    | (.error _, it'') => (.error .incomplete, it'')
  | (.error e, it') => (.error e, it')

/-- Mirrors the loop of `VarIntType::encode` (src/varint.rs, signed impl) on
the unsigned `w`-bit view of the value (`cast_unsigned` is a bit
reinterpretation): `(2 ^ w - 1) ^^^ 127` is `!SELF_SEGMENT_BITS` within `w`
bits, and the returned list is the byte slice the loop writes. -/
def varIntEncodeLoop (w : Nat) (v : Nat) : List Nat :=
  if v &&& ((2 ^ w - 1) ^^^ 127) = 0 then
    [v &&& 255]
  else
    ((v &&& 127) ||| 128) :: varIntEncodeLoop w (v >>> 7)
termination_by v
decreasing_by
  have h1 : v ≠ 0 := by
    intro h
    subst h
    simp_all
  simp only [Nat.shiftRight_eq_div_pow]
  exact Nat.div_lt_self (Nat.pos_of_ne_zero h1) (by norm_num)

/-- The bytes `VarIntType::encode` produces for the unsigned `w`-bit value
`v`. -/
def varIntEncode (w : Nat) (v : Nat) : List Nat :=
  varIntEncodeLoop w v

/-- Mirrors the `for i in (1..(size_of::<Self>() + 1)).rev()` loop of
`VarIntType::encode_len` (src/varint.rs, unsigned impl): `i` counts down from
`size_of` (= `w / 8`); the mask is `Self::MAX << (7 * i)` truncated to `w`
bits. -/
def varIntEncodeLenLoop (w : Nat) (v : Nat) : Nat → Nat
  | 0 => 1
  | i + 1 =>
    if v &&& (((2 ^ w - 1) <<< (7 * (i + 1))) % 2 ^ w) ≠ 0 then
      i + 2
    else
      varIntEncodeLenLoop w v i

/-- Mirrors `VarIntType::encode_len` for a `w`-bit integer
(`size_of::<Self>() = w / 8`). -/
def varIntEncodeLen (w : Nat) (v : Nat) : Nat :=
  varIntEncodeLenLoop w v (w / 8)

/-- Mirrors `VarIntType::EncodeBuf = [u8; size_of::<Self>() + 1]`
(src/varint.rs line 84): the capacity of the stack buffer `encode` writes
into. -/
def varIntEncodeBufSize (w : Nat) : Nat :=
  w / 8 + 1

/-- Mirrors `EncodeBuf` (src/encode/mod.rs): a fixed-capacity byte region and
the write head. `data` holds the bytes written so far (`head == data.length`);
the unchecked writes are modelled as list appends, so exceeding `cap` is
observable as `written > cap` (in Rust it is an out-of-bounds write). -/
structure EncodeBuf where
  cap : Nat
  data : List Nat
deriving DecidableEq, Repr

/-- Mirrors `EncodeBuf::new`. -/
def EncodeBuf.new (len : Nat) : EncodeBuf :=
  ⟨len, []⟩

/-- Mirrors `EncodeBuf::write_slice`. -/
def EncodeBuf.writeSlice (buf : EncodeBuf) (s : List Nat) : EncodeBuf :=
  ⟨buf.cap, buf.data ++ s⟩

/-- Mirrors `EncodeBuf::written`. -/
def EncodeBuf.written (buf : EncodeBuf) : Nat :=
  buf.data.length

/-- Mirrors `impl PacketEncode for VarInt<T>`: encode into a fresh
`VarIntType::EncodeBuf` and `write_slice` the produced bytes into `buf`. -/
def varIntPacketEncode (w : Nat) (v : Nat) (buf : EncodeBuf) : EncodeBuf :=
  buf.writeSlice (varIntEncode w v)

/-- The shape of a `PacketDecode` implementation for an element type: the
Rust `decode` mutates the cursor and returns a `Result`, modelled as the
result paired with the cursor state after the call. -/
def ElemDecoder (α ε : Type) : Type :=
  DecodeIter → Except ε α × DecodeIter

/-- Mirrors `impl PacketDecode for u8` (src/decode/num.rs):
`from_be_bytes(iter.read_arr::<1>()?)`. -/
def u8Decode : ElemDecoder Nat IncompleteDecodeError := fun it =>
  match it.readArr 1 with
  | (.ok bs, it') => (.ok (bs.getD 0 0), it')
  | (.error e, it') => (.error e, it')

/-- Mirrors `impl PacketDecode for u16` (src/decode/num.rs):
`from_be_bytes(iter.read_arr::<2>()?)`, big-endian. -/
def u16Decode : ElemDecoder Nat IncompleteDecodeError := fun it =>
  match it.readArr 2 with
  | (.ok bs, it') => (.ok (bs.getD 0 0 * 256 + bs.getD 1 0), it')
  | (.error e, it') => (.error e, it')

/-- Mirrors `ArrayDecodeError` (src/decode/array.rs). -/
inductive ArrayDecodeError (ε : Type) where
  | length (err : VarIntDecodeError)
  | badLength (len : Nat) (expected : Nat)
  | item (index : Nat) (err : ε)
deriving DecidableEq, Repr

/-- One run of the `[T; N]` decoder, with the resource bookkeeping the claim
is about: `slots` is the `MaybeUninit` array as the run leaves it (`none` =
never written), and `drops` records each `assume_init_drop` call of the
cleanup loop, in order, as the slot content it read. -/
structure ArrayDecodeRun (α ε : Type) where
  result : Except (ArrayDecodeError ε) (List α)
  iter : DecodeIter
  slots : List (Option α)
  drops : List (Option α)
deriving DecidableEq, Repr

/-- Mirrors the `for i in 0..N` loop of `impl PacketDecode for [T; N]`
(src/decode/array.rs lines 30-42), structurally recursing on the number of
remaining iterations (`rem`, with `i + rem = N`). On success slot `i` is
written (`arr.set`); on an element failure at `i` the cleanup loop
`for j in 0..i` drops each written slot in order, and the element error is
wrapped as `Item { index: i, err }`; when the loop finishes, the fully
written array is exposed (`assume_init`). -/
def arrayDecodeLoop (dec : ElemDecoder α ε) :
    Nat → Nat → List (Option α) → DecodeIter → ArrayDecodeRun α ε
  | _, 0, arr, it => ⟨.ok arr.reduceOption, it, arr, []⟩
  | i, rem + 1, arr, it =>
    match dec it with
    | (.ok item, it') => arrayDecodeLoop dec (i + 1) rem (arr.set i (some item)) it'
    | (.error e, it') =>
      ⟨.error (.item i e), it', arr, (List.range i).map fun j => arr.getD j none⟩

/-- Mirrors `impl PacketDecode for [T; N]` (src/decode/array.rs): decode a
`VarInt<u32>` length, fail with `BadLength` when it differs from `N`, then
run the element loop over a fresh uninitialized array. -/
def arrayDecode (N : Nat) (dec : ElemDecoder α ε) (it : DecodeIter) :
    ArrayDecodeRun α ε :=
  match varIntPacketDecode 32 it with
  | (.ok len, it') =>
    if len ≠ N then
      ⟨.error (.badLength len N), it', List.replicate N none, []⟩
    else
      arrayDecodeLoop dec 0 N (List.replicate N none) it'
  | (.error e, it') => ⟨.error (.length e), it', List.replicate N none, []⟩

/-- Mirrors `PrefixedDecodeError` (src/decode/mod.rs). -/
inductive PrefixedDecodeError (ε : Type) where
  | unknownPrefix (found : Nat) (expected : Option Nat)
  | error (err : ε)
deriving DecidableEq, Repr

/-- Mirrors the blanket `impl PrefixedPacketDecode for P` (src/decode/mod.rs
lines 140-162) for a packet type with declared ID `pfx`, unprefixed decoder
`dec` and `From<IncompleteDecodeError>` image `fromInc`: read one ID byte
(`iter.read()?`, whose `Incomplete` error is lifted into `E` and wrapped);
on a match decode the remainder with `dec`, otherwise fail with
`UnknownPrefix { found, expected: Some(PREFIX) }`. -/
def decodePrefixed (pfx : Nat) (fromInc : ε) (dec : ElemDecoder α ε)
    (it : DecodeIter) : Except (PrefixedDecodeError ε) α × DecodeIter :=
  match it.read with
  | (.ok p, it') =>
    if p == pfx then
      match dec it' with
      | (.ok v, it'') => (.ok v, it'')
      | (.error e, it'') => (.error (.error e), it'')
    else
      (.error (.unknownPrefix p (some pfx)), it')
  | (.error _, it') => (.error (.error fromInc), it')

/-- Mirrors `PacketState` (src/meta.rs), a fieldless `repr(u8)` enum. -/
inductive PacketState where
  | handshake
  | status
  | login
  | config
  | play
deriving DecidableEq, Repr

/-- The `repr(u8)` discriminant of a `PacketState` (`state as u8`). -/
def PacketState.toU8 : PacketState → Nat
  | .handshake => 0
  | .status => 1
  | .login => 2
  | .config => 3
  | .play => 4

/-- The partial inverse of `PacketState::toU8`: the `transmute::<u8,
PacketState>` of src/meta.rs is defined exactly on these bytes, so the
model returns `none` where the transmute would be undefined behaviour. -/
def PacketState.ofU8 : Nat → Option PacketState
  | 0 => some .handshake
  | 1 => some .status
  | 2 => some .login
  | 3 => some .config
  | 4 => some .play
  | _ => none

/-- Mirrors `core::sync::atomic::Ordering`, the caller-selected memory
ordering. The stored value of an `AtomicU8` does not depend on it, so the
model's operations take it and ignore it. -/
inductive AtomicOrdering where
  | relaxed
  | release
  | acquire
  | acqRel
  | seqCst
deriving DecidableEq, Repr

/-- Mirrors `AtomicPacketState` (src/meta.rs): a `repr(transparent)` wrapper
around an `AtomicU8`; `value` is the stored byte. -/
structure AtomicPacketState where
  value : Nat
deriving DecidableEq, Repr

/-- Mirrors `AtomicU8::compare_exchange` as a sequential atomic step:
`Ok(previous)` and the new cell value on a match, `Err(previous)` and the
unchanged cell otherwise. -/
def atomicU8CompareExchange (cell current new : Nat) : Except Nat Nat × Nat :=
  if cell = current then (.ok cell, new) else (.error cell, cell)

/-- Mirrors `AtomicPacketState::new`. -/
def AtomicPacketState.new (state : PacketState) : AtomicPacketState :=
  ⟨state.toU8⟩

/-- Mirrors `AtomicPacketState::into_inner`: the unconditional transmute is
modelled through `PacketState.ofU8`. -/
def AtomicPacketState.intoInner (a : AtomicPacketState) : Option PacketState :=
  PacketState.ofU8 a.value

/-- Mirrors `AtomicPacketState::load`. -/
def AtomicPacketState.load (a : AtomicPacketState) (order : AtomicOrdering) :
    Option PacketState :=
  PacketState.ofU8 a.value

/-- Mirrors `AtomicPacketState::store`: the new cell value. -/
def AtomicPacketState.store (a : AtomicPacketState) (val : PacketState)
    (order : AtomicOrdering) : AtomicPacketState :=
  ⟨val.toU8⟩

/-- Mirrors `AtomicPacketState::swap`: previous value (transmuted) and the
new cell. -/
def AtomicPacketState.swap (a : AtomicPacketState) (val : PacketState)
    (order : AtomicOrdering) : Option PacketState × AtomicPacketState :=
  (PacketState.ofU8 a.value, ⟨val.toU8⟩)

/-- Mirrors `AtomicPacketState::compare_exchange`: delegate to the `AtomicU8`
compare-exchange on the discriminants and transmute the previous value on
both branches. -/
def AtomicPacketState.compareExchange (a : AtomicPacketState)
    (current new : PacketState) (success failure : AtomicOrdering) :
    Except (Option PacketState) (Option PacketState) × AtomicPacketState :=
  match atomicU8CompareExchange a.value current.toU8 new.toU8 with
  | (.ok v, cell) => (.ok (PacketState.ofU8 v), ⟨cell⟩)
  | (.error v, cell) => (.error (PacketState.ofU8 v), ⟨cell⟩)

/-- Mirrors `AtomicPacketState::compare_exchange_weak` (src/meta.rs lines
108-118): its body calls `self.0.compare_exchange` — the strong variant —
exactly as `compare_exchange` does. -/
def AtomicPacketState.compareExchangeWeak (a : AtomicPacketState)
    (current new : PacketState) (success failure : AtomicOrdering) :
    Except (Option PacketState) (Option PacketState) × AtomicPacketState :=
  match atomicU8CompareExchange a.value current.toU8 new.toU8 with
  | (.ok v, cell) => (.ok (PacketState.ofU8 v), ⟨cell⟩)
  | (.error v, cell) => (.error (PacketState.ofU8 v), ⟨cell⟩)

/-- Mirrors `AtomicPacketState::fetch_update`: apply `f` to the transmuted
current value; on `Some(new)` store its discriminant and return
`Ok(previous)`, else `Err(previous)`. -/
def AtomicPacketState.fetchUpdate (a : AtomicPacketState)
    (setOrder fetchOrder : AtomicOrdering)
    (f : PacketState → Option PacketState) :
    Except (Option PacketState) (Option PacketState) × AtomicPacketState :=
  match (PacketState.ofU8 a.value).bind f with
  | some s => (.ok (PacketState.ofU8 a.value), ⟨s.toU8⟩)
  | none => (.error (PacketState.ofU8 a.value), a)

/-- One mutating operation on the cell, for stating that every reachable
stored byte is a valid discriminant. -/
inductive AtomicOp where
  | store (v : PacketState) (o : AtomicOrdering)
  | swap (v : PacketState) (o : AtomicOrdering)
  | cmpxchg (c n : PacketState) (so fo : AtomicOrdering)
  | cmpxchgWeak (c n : PacketState) (so fo : AtomicOrdering)
  | fetchUpdate (so fo : AtomicOrdering) (f : PacketState → Option PacketState)

/-- The cell value after one operation. -/
def AtomicOp.apply (a : AtomicPacketState) : AtomicOp → AtomicPacketState
  | .store v o => a.store v o
  | .swap v o => (a.swap v o).2
  | .cmpxchg c n so fo => (a.compareExchange c n so fo).2
  | .cmpxchgWeak c n so fo => (a.compareExchangeWeak c n so fo).2
  | .fetchUpdate so fo f => (a.fetchUpdate so fo f).2

/-- The cell after a sequence of operations (any interleaving of the atomic
operations of the cell's users is such a sequence). -/
def runAtomicOps (ops : List AtomicOp) (a : AtomicPacketState) :
    AtomicPacketState :=
  ops.foldl AtomicOp.apply a

/-- The stored byte is a discriminant of one of the five `PacketState`
variants, so the unchecked `transmute::<u8, PacketState>` is defined on it. -/
def ValidByte (b : Nat) : Prop :=
  (PacketState.ofU8 b).isSome = true

/-- The previous value carried by a compare-exchange or fetch-update result
(both the `Ok` and the `Err` branch carry one). -/
def cmpxchgPrev (r : Except (Option PacketState) (Option PacketState)) :
    Option PacketState :=
  match r with
  | .ok p => p
  | .error p => p

/-- Run an element decoder `n` times from a given cursor state, returning the
decoded values and the final state, or `none` if any step fails. -/
def decSteps (dec : ElemDecoder α ε) : Nat → DecodeIter → Option (List α × DecodeIter)
  | 0, it => some ([], it)
  | n + 1, it =>
    match dec it with
    | (.ok v, it') =>
      match decSteps dec n it' with
      | some (vs, itf) => some (v :: vs, itf)
      | none => none
    | (.error _, _) => none

/-- Write the values `vs` into consecutive slots starting at index `k`. -/
def setFrom (arr : List (Option α)) (k : Nat) : List α → List (Option α)
  | [] => arr
  | v :: vs => setFrom (arr.set k (some v)) (k + 1) vs

/-- The cursor-counter contract a single (fallible) cursor operation obeys:
the counter never decreases, a successful call advances it by exactly the
number of bytes taken from the underlying source, and a failed call leaves it
unchanged. -/
def CounterContract (it : DecodeIter) (r : Except ε' α' × DecodeIter) : Prop :=
  it.head ≤ r.2.head ∧
  (r.1.isOk = true → r.2.head = it.head + (it.iter.length - r.2.iter.length)) ∧
  (r.1.isOk = false → r.2.head = it.head)

/-- `takeExact` succeeds exactly on a long-enough list, pulls exactly `n`
bytes and keeps the rest. -/
theorem takeExact_some {n : Nat} {l v rem : List Nat}
    (h : takeExact n l = some (v, rem)) :
    v.length = n ∧ l.length = n + rem.length := by
  induction n generalizing l v rem with
  | zero =>
    simp only [takeExact, Option.some.injEq, Prod.mk.injEq] at h
    obtain ⟨h1, h2⟩ := h
    subst h1
    subst h2
    simp
  | succ n ih =>
    cases l with
    | nil => simp [takeExact] at h
    | cons b rest =>
      simp only [takeExact] at h
      cases hrec : takeExact n rest with
      | none => rw [hrec] at h; simp at h
      | some p =>
        obtain ⟨v', rem'⟩ := p
        rw [hrec] at h
        simp only [Option.some.injEq, Prod.mk.injEq] at h
        obtain ⟨h1, h2⟩ := h
        subst h2
        obtain ⟨hl, hr⟩ := ih hrec
        subst h1
        simp [hl, hr]
        omega

/-- `decSteps` decodes exactly `n` values when it succeeds. -/
theorem decSteps_length {dec : ElemDecoder α ε} :
    ∀ {n : Nat} {it itf : DecodeIter} {vs : List α},
      decSteps dec n it = some (vs, itf) → vs.length = n := by
  intro n
  induction n with
  | zero =>
    intro it itf vs h
    simp only [decSteps, Option.some.injEq, Prod.mk.injEq] at h
    obtain ⟨h1, _⟩ := h
    subst h1
    rfl
  | succ n ih =>
    intro it itf vs h
    simp only [decSteps] at h
    cases hd : dec it with
    | mk r it' =>
      rw [hd] at h
      cases r with
      | error e => simp at h
      | ok v =>
        simp only at h
        cases hrec : decSteps dec n it' with
        | none => rw [hrec] at h; simp at h
        | some p =>
          obtain ⟨vs', itf'⟩ := p
          rw [hrec] at h
          simp only [Option.some.injEq, Prod.mk.injEq] at h
          obtain ⟨h1, _⟩ := h
          subst h1
          simp [ih hrec]

/-- Disjoint-bit OR is addition: bits below `s` OR a value shifted up by `s`. -/
theorem or_shift_add (s a b : Nat) (ha : a < 2 ^ s) :
    a ||| (b <<< s) = a + b * 2 ^ s := by
  apply Nat.eq_of_testBit_eq
  intro i
  rw [Nat.testBit_lor, Nat.testBit_shiftLeft]
  by_cases hi : i < s
  · have hb : (decide (i ≥ s) && Nat.testBit b (i - s)) = false := by
      simp
      omega
    rw [hb, Bool.or_false]
    have h1 : (a + b * 2 ^ s) % 2 ^ s = a := by
      rw [Nat.add_mul_mod_self_right, Nat.mod_eq_of_lt ha]
    have h2 := Nat.testBit_mod_two_pow (a + b * 2 ^ s) s i
    rw [h1] at h2
    rw [h2]
    simp [hi]
  · have hsi : s ≤ i := Nat.not_lt.1 hi
    have ha' : Nat.testBit a i = false :=
      Nat.testBit_lt_two_pow
        (lt_of_lt_of_le ha (Nat.pow_le_pow_right (by norm_num) hsi))
    rw [ha']
    simp only [Bool.false_or]
    have hdec : (decide (i ≥ s)) = true := decide_eq_true hsi
    rw [hdec, Bool.true_and]
    have hd : (a + b * 2 ^ s) >>> s = b := by
      rw [Nat.shiftRight_eq_div_pow,
        Nat.add_mul_div_right _ _ (Nat.two_pow_pos s), Nat.div_eq_of_lt ha]
      simp
    calc Nat.testBit b (i - s)
        = Nat.testBit ((a + b * 2 ^ s) >>> s) (i - s) := by rw [hd]
      _ = Nat.testBit (a + b * 2 ^ s) (s + (i - s)) :=
          Nat.testBit_shiftRight _
      _ = Nat.testBit (a + b * 2 ^ s) i := by
          rw [Nat.add_sub_cancel' hsi]

/-- The `!SELF_SEGMENT_BITS` mask of the encoder is the bits `7..w-1`. -/
theorem mask_eq (w : Nat) (h7 : 7 ≤ w) :
    (2 ^ w - 1) ^^^ 127 = (2 ^ (w - 7) - 1) <<< 7 := by
  apply Nat.eq_of_testBit_eq
  intro i
  rw [Nat.testBit_xor, Nat.testBit_two_pow_sub_one,
    show (127 : Nat) = 2 ^ 7 - 1 from rfl, Nat.testBit_two_pow_sub_one,
    Nat.testBit_shiftLeft, Nat.testBit_two_pow_sub_one]
  by_cases h1 : i < 7 <;> by_cases h2 : i < w <;>
    simp [h1, h2] <;> omega

/-- Masking a `< 2^w` value with `!SELF_SEGMENT_BITS` keeps the bits `≥ 7`. -/
theorem and_mask (w v : Nat) (h7 : 7 ≤ w) (hv : v < 2 ^ w) :
    v &&& ((2 ^ w - 1) ^^^ 127) = (v >>> 7) <<< 7 := by
  rw [mask_eq w h7]
  have hd : v &&& ((2 ^ (w - 7) - 1) <<< 7)
      = ((v >>> 7) &&& (2 ^ (w - 7) - 1)) <<< 7 := by
    apply Nat.eq_of_testBit_eq
    intro j
    simp only [Nat.testBit_land, Nat.testBit_shiftLeft, Nat.testBit_shiftRight]
    by_cases h : 7 ≤ j
    · rw [Nat.add_sub_cancel' h]
      cases Nat.testBit v j <;> simp [h]
    · simp [h]
  rw [hd]
  congr 1
  apply Nat.and_pow_two_sub_one_of_lt_two_pow
  rw [Nat.shiftRight_eq_div_pow]
  apply Nat.div_lt_of_lt_mul
  calc v < 2 ^ w := hv
    _ = 2 ^ 7 * 2 ^ (w - 7) := by
        rw [← pow_add]
        congr 1
        omega

/-- The terminator test of the encoder: within `w` bits, `v & !0x7F == 0`
holds exactly for `v < 128`. -/
theorem encode_terminates_iff (w v : Nat) (h7 : 7 ≤ w) (hv : v < 2 ^ w) :
    (v &&& ((2 ^ w - 1) ^^^ 127) = 0 ↔ v < 128) := by
  rw [and_mask w v h7 hv, Nat.shiftRight_eq_div_pow, Nat.shiftLeft_eq]
  show v / 2 ^ 7 * 2 ^ 7 = 0 ↔ v < 128
  omega

/-- The encoder's byte loop is the base-128 digit expansion. -/
theorem varIntEncodeLoop_step (w v : Nat) (h7 : 7 ≤ w) (hv : v < 2 ^ w) :
    varIntEncodeLoop w v =
      if v < 128 then [v]
      else (v % 128 + 128) :: varIntEncodeLoop w (v >>> 7) := by
  have hsmall : ∀ x : Nat, x < 128 → x &&& 255 = x := by decide
  have hseg : v &&& 127 = v % 128 := by
    rw [show (127 : Nat) = 2 ^ 7 - 1 from rfl,
      Nat.and_pow_two_sub_one_eq_mod]
  have hor : ∀ x : Nat, x < 128 → x ||| 128 = x + 128 := by
    intro x hx
    have := or_shift_add 7 x 1 hx
    simpa using this
  rw [varIntEncodeLoop]
  by_cases hc : v < 128
  · rw [if_pos ((encode_terminates_iff w v h7 hv).2 hc), if_pos hc,
      hsmall v hc]
  · rw [if_neg (fun h => hc ((encode_terminates_iff w v h7 hv).1 h)),
      if_neg hc, hseg, hor (v % 128) (Nat.mod_lt v (by norm_num))]

/-- An encoding is never empty. -/
theorem varIntEncode_ne_nil (w v : Nat) : varIntEncode w v ≠ [] := by
  rw [varIntEncode, varIntEncodeLoop]
  split <;> simp

/-- The core `VarIntType::decode` loop inverts the `VarIntType::encode` loop:
running it over an encoding followed by anything reconstructs the encoded
value (folded into the accumulator at the current shift), consumes exactly
the encoding, and leaves the tail. The `VarInt` micro-format itself
round-trips — the failure in `decode(encode(v))` comes from the `PacketDecode`
wrapper, not from this loop. -/
theorem varIntLoop_encode (w : Nat) (h7 : 7 ≤ w) :
    ∀ (v a s c h : Nat) (rest : List Nat),
      s ≤ w → v < 2 ^ (w - s) → a < 2 ^ s →
      varIntLoop w (varIntEncode w v ++ rest) a s c h =
        (.ok (a + v * 2 ^ s, c + (varIntEncode w v).length),
          ⟨rest, h + (varIntEncode w v).length⟩) := by
  intro v
  induction v using Nat.strong_induction_on with
  | _ v ih =>
    intro a s c h rest hs hv ha
    have hvw : v < 2 ^ w :=
      lt_of_lt_of_le hv (Nat.pow_le_pow_right (by norm_num) (by omega))
    have hx127 : ∀ x : Nat, x < 128 → x &&& 127 = x := by decide
    have hx128 : ∀ x : Nat, x < 128 → (x &&& 128 == 0) = true := by decide
    have hy128 : ∀ x : Nat, x < 128 → ((x + 128) &&& 128 == 0) = false := by
      decide
    have hy127 : ∀ x : Nat, x < 128 → (x + 128) &&& 127 = x := by decide
    rw [show varIntEncode w v = varIntEncodeLoop w v from rfl,
      varIntEncodeLoop_step w v h7 hvw]
    by_cases hc : v < 128
    · rw [if_pos hc]
      show varIntLoop w (v :: rest) a s c h = _
      have hmod : ((v &&& 127) <<< s) % 2 ^ w = v <<< s := by
        rw [hx127 v hc]
        apply Nat.mod_eq_of_lt
        rw [Nat.shiftLeft_eq]
        calc v * 2 ^ s < 2 ^ (w - s) * 2 ^ s :=
              (Nat.mul_lt_mul_right (Nat.two_pow_pos s)).2 hv
          _ = 2 ^ w := by
              rw [← pow_add]
              congr 1
              omega
      have hval : a ||| (((v &&& 127) <<< s) % 2 ^ w) = a + v * 2 ^ s := by
        rw [hmod]
        exact or_shift_add s a v ha
      simp [varIntLoop, hx128 v hc, hval]
    · rw [if_neg hc]
      have h128 : 128 ≤ v := Nat.not_lt.1 hc
      have hrlt : v % 128 < 128 := Nat.mod_lt v (by norm_num)
      have hsw : s + 7 ≤ w := by
        by_contra hcon
        have h1 : w - s < 7 := by omega
        have : (2 ^ (w - s) : Nat) < 2 ^ 7 :=
          Nat.pow_lt_pow_right (by norm_num) h1
        omega
      have hmod : (((v % 128 + 128) &&& 127) <<< s) % 2 ^ w
          = (v % 128) <<< s := by
        rw [hy127 (v % 128) hrlt]
        apply Nat.mod_eq_of_lt
        rw [Nat.shiftLeft_eq]
        calc v % 128 * 2 ^ s < 2 ^ 7 * 2 ^ s :=
              (Nat.mul_lt_mul_right (Nat.two_pow_pos s)).2 hrlt
          _ = 2 ^ (s + 7) := by rw [← pow_add, Nat.add_comm]
          _ ≤ 2 ^ w := Nat.pow_le_pow_right (by norm_num) hsw
      have hacc : a ||| ((((v % 128 + 128) &&& 127) <<< s) % 2 ^ w)
          = a + v % 128 * 2 ^ s := by
        rw [hmod]
        exact or_shift_add s a (v % 128) ha
      have hstep : varIntLoop w
          ((v % 128 + 128) :: (varIntEncodeLoop w (v >>> 7) ++ rest)) a s c h
          = varIntLoop w (varIntEncodeLoop w (v >>> 7) ++ rest)
              (a + v % 128 * 2 ^ s) (s + 7) (c + 1) (h + 1) := by
        simp [varIntLoop, hy128 (v % 128) hrlt, hacc,
          show ¬ s + 7 > w from by omega]
      rw [List.cons_append, hstep]
      have hvlt : v >>> 7 < v := by
        rw [Nat.shiftRight_eq_div_pow]
        exact Nat.div_lt_self (by omega) (by norm_num)
      have hih := ih (v >>> 7) hvlt (a + v % 128 * 2 ^ s) (s + 7) (c + 1)
        (h + 1) rest hsw
        (by
          rw [Nat.shiftRight_eq_div_pow]
          apply Nat.div_lt_of_lt_mul
          calc v < 2 ^ (w - s) := hv
            _ = 2 ^ 7 * 2 ^ (w - (s + 7)) := by
                rw [← pow_add]
                congr 1
                omega)
        (by
          have h1 : v % 128 * 2 ^ s ≤ 127 * 2 ^ s :=
            Nat.mul_le_mul_right _ (by omega)
          calc a + v % 128 * 2 ^ s < 128 * 2 ^ s := by omega
            _ = 2 ^ (s + 7) := by
                rw [pow_add]
                ring)
      rw [show varIntEncode w (v >>> 7) = varIntEncodeLoop w (v >>> 7)
        from rfl] at hih
      rw [hih]
      have hval : a + v % 128 * 2 ^ s + v >>> 7 * 2 ^ (s + 7)
          = a + v * 2 ^ s := by
        rw [Nat.shiftRight_eq_div_pow]
        have hqr := Nat.div_add_mod v (2 ^ 7)
        have h27 : (2 ^ 7 : Nat) = 128 := by norm_num
        rw [h27] at hqr
        calc a + v % 128 * 2 ^ s + v / 2 ^ 7 * 2 ^ (s + 7)
            = a + (128 * (v / 128) + v % 128) * 2 ^ s := by
              rw [pow_add]
              norm_num
              ring
          _ = a + v * 2 ^ s := by rw [hqr]
      rw [hval]
      simp only [List.length_cons]
      have hc1 : c + 1 + (varIntEncodeLoop w (v >>> 7)).length
          = c + ((varIntEncodeLoop w (v >>> 7)).length + 1) := by omega
      have hh1 : h + 1 + (varIntEncodeLoop w (v >>> 7)).length
          = h + ((varIntEncodeLoop w (v >>> 7)).length + 1) := by omega
      rw [hc1, hh1]

/-- `VarIntType::decode` inverts `VarIntType::encode`: the micro-format
round-trips at the type level, for the full value range of both widths. -/
theorem varIntTypeDecode_encode (w v : Nat) (h7 : 7 ≤ w) (hv : v < 2 ^ w)
    (rest : List Nat) (h : Nat) :
    varIntTypeDecode w ⟨varIntEncode w v ++ rest, h⟩ =
      (.ok (v, (varIntEncode w v).length),
        ⟨rest, h + (varIntEncode w v).length⟩) := by
  have hmain := varIntLoop_encode w h7 v 0 0 0 h rest (Nat.zero_le w)
    (by simpa using hv) (by norm_num)
  simpa [varIntTypeDecode] using hmain

/-- The `PacketDecode` wrapper, run on exactly the bytes `encode` produced,
always fails with `Incomplete`: after the core loop has already consumed the
whole encoding through the cursor, the wrapper's `buf.skip(consumed)` finds
the source exhausted. This pins the round-trip failure of C1 on the extra
`skip`, for every value of every width. -/
theorem varIntPacketDecode_exact_fails (w v h : Nat) (h7 : 7 ≤ w)
    (hv : v < 2 ^ w) :
    varIntPacketDecode w ⟨varIntEncode w v, h⟩ =
      (.error .incomplete, ⟨[], h + (varIntEncode w v).length⟩) := by
  have hdec := varIntTypeDecode_encode w v h7 hv [] h
  rw [List.append_nil] at hdec
  rw [varIntPacketDecode, hdec]
  have hne := varIntEncode_ne_nil w v
  cases henc : varIntEncode w v with
  | nil => exact absurd henc hne
  | cons b bs =>
    simp [DecodeIter.skip, takeExact]

/-- Witness that the exact-encoding decode failure applies at a concrete
input: `VarInt<u32>(300)` encodes to two bytes whose exact decode fails. -/
theorem varIntPacketDecode_exact_fails_witness :
    varIntPacketDecode 32 ⟨varIntEncode 32 300, 0⟩ =
      (.error .incomplete, ⟨[], 0 + (varIntEncode 32 300).length⟩) :=
  varIntPacketDecode_exact_fails 32 300 0 (by norm_num) (by norm_num)

/-- Powers of 128 are powers of 2. -/
theorem pow128_eq (m : Nat) : (128 : Nat) ^ m = 2 ^ (7 * m) := by
  rw [show (128 : Nat) = 2 ^ 7 from by norm_num, ← pow_mul]

/-- Masking a `< 2^w` value with `MAX << k` (truncated to `w` bits) keeps
exactly the bits at positions `≥ k`. -/
theorem and_mask_general (w v k : Nat) (hk : k ≤ w) (hv : v < 2 ^ w) :
    v &&& (((2 ^ w - 1) <<< k) % 2 ^ w) = (v >>> k) <<< k := by
  apply Nat.eq_of_testBit_eq
  intro j
  simp only [Nat.testBit_land, Nat.testBit_mod_two_pow, Nat.testBit_shiftLeft,
    Nat.testBit_two_pow_sub_one, Nat.testBit_shiftRight]
  by_cases hjk : k ≤ j
  · rw [Nat.add_sub_cancel' hjk]
    by_cases hjw : j < w
    · have h1 : j - k < w := by omega
      simp [hjk, hjw, h1]
    · have h0 : Nat.testBit v j = false :=
        Nat.testBit_lt_two_pow
          (lt_of_lt_of_le hv (Nat.pow_le_pow_right (by norm_num) (by omega)))
      simp [h0]
  · simp [hjk]

/-- The encoding of `v` fits in `n` bytes exactly when `v < 128 ^ n`: the
byte count of the encoder is the base-128 digit count. -/
theorem varIntEncode_length_le_iff (w : Nat) (h7 : 7 ≤ w) :
    ∀ (v n : Nat), v < 2 ^ w → 1 ≤ n →
      ((varIntEncode w v).length ≤ n ↔ v < 128 ^ n) := by
  intro v
  induction v using Nat.strong_induction_on with
  | _ v ih =>
    intro n hv hn
    rw [show varIntEncode w v = varIntEncodeLoop w v from rfl,
      varIntEncodeLoop_step w v h7 hv]
    by_cases hc : v < 128
    · rw [if_pos hc]
      simp only [List.length_singleton]
      constructor
      · intro _
        calc v < 128 := hc
          _ = 128 ^ 1 := (pow_one 128).symm
          _ ≤ 128 ^ n := Nat.pow_le_pow_right (by norm_num) hn
      · intro _
        exact hn
    · rw [if_neg hc]
      simp only [List.length_cons]
      cases n with
      | zero => omega
      | succ n' =>
        cases n' with
        | zero =>
          constructor
          · intro hle
            have hne := varIntEncode_ne_nil w (v >>> 7)
            rw [show varIntEncode w (v >>> 7)
              = varIntEncodeLoop w (v >>> 7) from rfl] at hne
            have hpos : 1 ≤ (varIntEncodeLoop w (v >>> 7)).length :=
              List.length_pos.2 hne
            omega
          · intro hlt
            rw [pow_one] at hlt
            exact absurd hlt hc
        | succ n'' =>
          have hvd : v >>> 7 < v := by
            rw [Nat.shiftRight_eq_div_pow]
            exact Nat.div_lt_self (by omega) (by norm_num)
          have hvdw : v >>> 7 < 2 ^ w := by
            rw [Nat.shiftRight_eq_div_pow]
            exact lt_of_le_of_lt (Nat.div_le_self _ _) hv
          have hiff := ih (v >>> 7) hvd (n'' + 1) hvdw (by omega)
          rw [show varIntEncode w (v >>> 7)
            = varIntEncodeLoop w (v >>> 7) from rfl] at hiff
          constructor
          · intro hle
            have h1 : (varIntEncodeLoop w (v >>> 7)).length ≤ n'' + 1 := by
              omega
            have h2 := hiff.1 h1
            rw [Nat.shiftRight_eq_div_pow] at h2
            have h3 : v < 128 ^ (n'' + 1) * 2 ^ 7 :=
              (Nat.div_lt_iff_lt_mul (by norm_num : 0 < 2 ^ 7)).1 h2
            calc v < 128 ^ (n'' + 1) * 2 ^ 7 := h3
              _ = 128 ^ (n'' + 2) := by
                  rw [show (2 ^ 7 : Nat) = 128 from by norm_num]
                  ring
          · intro hlt
            have hdl : v >>> 7 < 128 ^ (n'' + 1) := by
              rw [Nat.shiftRight_eq_div_pow]
              apply Nat.div_lt_of_lt_mul
              calc v < 128 ^ (n'' + 2) := hlt
                _ = 2 ^ 7 * 128 ^ (n'' + 1) := by
                    rw [show (2 ^ 7 : Nat) = 128 from by norm_num]
                    ring
            have := hiff.2 hdl
            omega

/-- The `encode_len` countdown loop computes the encoder's byte count, as
long as the value fits in the byte range the loop scans (`i + 1` mask
positions cover values below `2^(7*i+7)`). -/
theorem varIntEncodeLenLoop_exact (w : Nat) (h7 : 7 ≤ w) (v : Nat)
    (hv : v < 2 ^ w) :
    ∀ i : Nat, 7 * (i + 1) ≤ w + 7 → v < 2 ^ (7 * i + 7) →
      varIntEncodeLenLoop w v i = (varIntEncode w v).length := by
  intro i
  induction i with
  | zero =>
    intro hki hvi
    have h1 := (varIntEncode_length_le_iff w h7 v 1 hv (by omega)).2
      (by simpa using hvi)
    have hne := varIntEncode_ne_nil w v
    have hpos : 1 ≤ (varIntEncode w v).length := List.length_pos.2 hne
    rw [varIntEncodeLenLoop]
    omega
  | succ i ihi =>
    intro hki hvi
    have hkw : 7 * (i + 1) ≤ w := by omega
    have hmask := and_mask_general w v (7 * (i + 1)) hkw hv
    rw [varIntEncodeLenLoop, hmask]
    by_cases hbig : 2 ^ (7 * (i + 1)) ≤ v
    · have hshift : (v >>> (7 * (i + 1))) <<< (7 * (i + 1)) ≠ 0 := by
        rw [Nat.shiftRight_eq_div_pow, Nat.shiftLeft_eq]
        have hq : 1 ≤ v / 2 ^ (7 * (i + 1)) :=
          (Nat.one_le_div_iff (Nat.two_pow_pos _)).2 hbig
        have hgp : 0 < 2 ^ (7 * (i + 1)) := Nat.two_pow_pos _
        have := Nat.mul_le_mul hq (Nat.le_refl (2 ^ (7 * (i + 1))))
        omega
      rw [if_pos hshift]
      have hle : (varIntEncode w v).length ≤ i + 2 :=
        (varIntEncode_length_le_iff w h7 v (i + 2) hv (by omega)).2
          (by
            rw [pow128_eq]
            calc v < 2 ^ (7 * (i + 1) + 7) := hvi
              _ = 2 ^ (7 * (i + 2)) := by ring_nf)
      have hgt : ¬ (varIntEncode w v).length ≤ i + 1 := by
        intro hcon
        have := (varIntEncode_length_le_iff w h7 v (i + 1) hv (by omega)).1
          hcon
        rw [pow128_eq] at this
        omega
      omega
    · have hshift : ¬ (v >>> (7 * (i + 1))) <<< (7 * (i + 1)) ≠ 0 := by
        rw [Nat.shiftRight_eq_div_pow, Nat.shiftLeft_eq]
        have hq : v / 2 ^ (7 * (i + 1)) = 0 :=
          Nat.div_eq_of_lt (by omega)
        simp [hq]
      rw [if_neg hshift]
      exact ihi (by omega) (by
        have : (2 : Nat) ^ (7 * (i + 1)) = 2 ^ (7 * i + 7) := by ring_nf
        omega)

/-- `encode_len` is exact — `encode_len(v) = length(encode(v))` — whenever
the value fits below bit `7 * (size_of + 1)`. For 32-bit types that is the
whole range (`7 * 5 = 35 ≥ 32`); for 64-bit types it covers exactly the
values below `2^63` (`7 * 9 = 63 < 64`), and C2 shows the contract indeed
breaks at `2^63`. -/
theorem varIntEncodeLen_exact (w v : Nat) (h7 : 7 ≤ w) (hv : v < 2 ^ w)
    (hv2 : v < 2 ^ (7 * (w / 8) + 7)) :
    varIntEncodeLen w v = (varIntEncode w v).length :=
  varIntEncodeLenLoop_exact w h7 v hv (w / 8) (by omega) hv2

/-- The exact-size contract holds for the whole 32-bit VarInt range. -/
theorem varIntEncodeLen32_exact (v : Nat) (hv : v < 2 ^ 32) :
    varIntEncodeLen 32 v = (varIntEncode 32 v).length :=
  varIntEncodeLen_exact 32 v (by norm_num) hv
    (lt_of_lt_of_le hv (Nat.pow_le_pow_right (by norm_num) (by norm_num)))

/-- The exact-size contract holds for 64-bit VarInt values below `2^63`. -/
theorem varIntEncodeLen64_exact_below (v : Nat) (hv : v < 2 ^ 63) :
    varIntEncodeLen 64 v = (varIntEncode 64 v).length :=
  varIntEncodeLen_exact 64 v (by norm_num)
    (lt_of_lt_of_le hv (Nat.pow_le_pow_right (by norm_num) (by norm_num)))
    (by norm_num at hv ⊢; omega)

/-- Closed instance of the exactness theorems at concrete inputs. -/
theorem varIntEncodeLen_exact_examples :
    varIntEncodeLen 32 (2 ^ 32 - 1) = (varIntEncode 32 (2 ^ 32 - 1)).length ∧
    varIntEncodeLen 64 (2 ^ 63 - 1) = (varIntEncode 64 (2 ^ 63 - 1)).length :=
  ⟨varIntEncodeLen32_exact _ (by norm_num),
    varIntEncodeLen64_exact_below _ (by norm_num)⟩

/-- C1. The round-trip property fails in the code: `VarInt<T>::decode` first
pulls the value's bytes through the `DecodeIter` itself (`T::decode(&mut*buf)`
advances `head`) and then calls `buf.skip(consumed)`, consuming the same
count a second time. Decoding the exact byte sequence `[0x00]` produced by
encoding `VarInt<u32>(0)` therefore fails with `Incomplete` (the skip finds
the source exhausted) instead of returning the value. -/
theorem varint_roundtrip_fails_on_own_encoding :
    varIntEncode 32 0 = [0] ∧
    varIntPacketDecode 32 ⟨varIntEncode 32 0, 0⟩ = (.error .incomplete, ⟨[], 1⟩) := by
  have he : varIntEncode 32 0 = [0] := by
    simp [varIntEncode, varIntEncodeLoop]
  refine ⟨he, ?_⟩
  rw [he]
  decide

/-- C2. The exact-size contract fails for 64-bit values with the top bit set:
`encode_len` for `VarInt<u64>(2^63)` returns 9 (its loop only scans up to
`i = size_of = 8`) while `encode` emits 10 bytes, overflowing the
`[u8; size_of + 1] = [u8; 9]` stack buffer and writing past an `EncodeBuf`
sized to `encode_len`. -/
theorem varint64_encode_len_mismatch :
    varIntEncodeLen 64 (2 ^ 63) = 9 ∧
    varIntEncode 64 (2 ^ 63) =
      [128, 128, 128, 128, 128, 128, 128, 128, 128, 1] ∧
    (varIntEncode 64 (2 ^ 63)).length = 10 ∧
    varIntEncodeBufSize 64 = 9 ∧
    (varIntPacketEncode 64 (2 ^ 63)
        (EncodeBuf.new (varIntEncodeLen 64 (2 ^ 63)))).written >
      (EncodeBuf.new (varIntEncodeLen 64 (2 ^ 63))).cap := by
  have hlen : varIntEncodeLen 64 (2 ^ 63) = 9 := by decide
  have henc : varIntEncode 64 (2 ^ 63) =
      [128, 128, 128, 128, 128, 128, 128, 128, 128, 1] := by
    simp [varIntEncode, varIntEncodeLoop] <;> decide
  refine ⟨hlen, henc, by rw [henc]; rfl, by decide, ?_⟩
  simp only [varIntPacketEncode, EncodeBuf.writeSlice, EncodeBuf.new,
    EncodeBuf.written, hlen, henc]
  decide

/-- C6. VarInt boundary encodings: `0 → [0x00]`, `127 → [0x7F]`,
`128 → [0x80, 0x01]`, and `-1i32` (whose `cast_unsigned` bit pattern is
`4294967295 = 2^32 - 1`) `→ [0xFF, 0xFF, 0xFF, 0xFF, 0x0F]`; `encode_len`
returns 1, 1, 2, 5 respectively. -/
theorem varint_boundary_encodings :
    varIntEncode 32 0 = [0] ∧
    varIntEncode 32 127 = [127] ∧
    varIntEncode 32 128 = [128, 1] ∧
    varIntEncode 32 4294967295 = [255, 255, 255, 255, 15] ∧
    varIntEncodeLen 32 0 = 1 ∧
    varIntEncodeLen 32 127 = 1 ∧
    varIntEncodeLen 32 128 = 2 ∧
    varIntEncodeLen 32 4294967295 = 5 := by
  refine ⟨?_, ?_, ?_, ?_, by decide, by decide, by decide, by decide⟩
  · simp [varIntEncode, varIntEncodeLoop] <;> decide
  · simp [varIntEncode, varIntEncodeLoop] <;> decide
  · simp [varIntEncode, varIntEncodeLoop] <;> decide
  · simp [varIntEncode, varIntEncodeLoop] <;> decide

/-- C3, counterexample. The claim's bound `ceil(32/7) + 1 = 6` is wrong: this
six-byte encoding (five continuation bytes, then a terminator) is no longer
than that bound, yet the decoder rejects it as `TooLong` — after the fifth
continuation byte the accumulated shift is `35 > 32`. -/
theorem varint32_six_bytes_rejected :
    (varIntTypeDecode 32 ⟨[128, 128, 128, 128, 128, 0], 0⟩).1 =
      .error .tooLong ∧
    ([128, 128, 128, 128, 128, 0] : List Nat).length = 32 / 7 + 2 := by
  decide

/-- C5, counterexample. Decoding a `[u8; 3]` from the stream
`[0x02, 0xAA, 0xBB]` (VarInt length 2, then two one-byte elements) fails with
`BadLength { len: 2, expected: 3 }` as claimed, but the cursor has consumed 2
bytes — not the `1 + 1 + 1 = 3` bytes (length field plus both elements) the
claim predicts: the decoder returns before touching any element, and the
VarInt length decoder itself consumed its byte twice. -/
theorem array3_badLength_consumed_counterexample :
    (arrayDecode 3 u8Decode ⟨[2, 170, 187], 0⟩).result =
      .error (.badLength 2 3) ∧
    (arrayDecode 3 u8Decode ⟨[2, 170, 187], 0⟩).iter.head = 2 ∧
    (2 : Nat) ≠ 1 + 1 + 1 := by
  decide

/-- A `PacketState` discriminant is always a valid stored byte. -/
theorem validByte_toU8 (s : PacketState) : ValidByte s.toU8 := by
  cases s <;> rfl

/-- Transmuting a discriminant back yields the state it came from. -/
theorem ofU8_toU8 (s : PacketState) : PacketState.ofU8 s.toU8 = some s := by
  cases s <;> rfl

/-- Every single operation on the cell keeps the stored byte a valid
discriminant. -/
theorem applyOp_valid (a : AtomicPacketState) (op : AtomicOp)
    (h : ValidByte a.value) : ValidByte (AtomicOp.apply a op).value := by
  cases op with
  | store v o => exact validByte_toU8 v
  | swap v o => exact validByte_toU8 v
  | cmpxchg c n so fo =>
    by_cases hc : a.value = c.toU8 <;>
      simp [AtomicOp.apply, AtomicPacketState.compareExchange,
        atomicU8CompareExchange, hc] <;>
      first
        | exact validByte_toU8 n
        | exact h
  | cmpxchgWeak c n so fo =>
    by_cases hc : a.value = c.toU8 <;>
      simp [AtomicOp.apply, AtomicPacketState.compareExchangeWeak,
        atomicU8CompareExchange, hc] <;>
      first
        | exact validByte_toU8 n
        | exact h
  | fetchUpdate so fo f =>
    cases hb : (PacketState.ofU8 a.value).bind f with
    | some s =>
      simp [AtomicOp.apply, AtomicPacketState.fetchUpdate, hb]
      exact validByte_toU8 s
    | none =>
      simp [AtomicOp.apply, AtomicPacketState.fetchUpdate, hb]
      exact h

/-- Validity of the stored byte is preserved by any sequence of cell
operations. -/
theorem runAtomicOps_valid :
    ∀ (ops : List AtomicOp) (a : AtomicPacketState),
      ValidByte a.value → ValidByte (runAtomicOps ops a).value := by
  intro ops
  induction ops with
  | nil => intro a h; exact h
  | cons op ops ih =>
    intro a h
    exact ih (AtomicOp.apply a op) (applyOp_valid a op h)

/-- C9. Atomic state validity: starting from `AtomicPacketState::new`, every
sequence of `store`/`swap`/`compare_exchange`/`compare_exchange_weak`/
`fetch_update` operations (any interleaving of the cell's users) leaves a
stored byte that is a discriminant of one of the five `PacketState` variants;
and on any such valid cell, `load`, `into_inner`, and the previous values
returned by `swap`, both compare-exchange variants and `fetch_update` all
transmute to a valid `PacketState`. -/
theorem atomic_state_validity :
    (∀ (s0 : PacketState) (ops : List AtomicOp),
      ValidByte (runAtomicOps ops (AtomicPacketState.new s0)).value) ∧
    (∀ (a : AtomicPacketState) (o so fo : AtomicOrdering)
      (v c n : PacketState) (f : PacketState → Option PacketState),
      ValidByte a.value →
        (a.load o).isSome = true ∧
        a.intoInner.isSome = true ∧
        (a.swap v o).1.isSome = true ∧
        (cmpxchgPrev (a.compareExchange c n so fo).1).isSome = true ∧
        (cmpxchgPrev (a.compareExchangeWeak c n so fo).1).isSome = true ∧
        (cmpxchgPrev (a.fetchUpdate so fo f).1).isSome = true) := by
  constructor
  · intro s0 ops
    exact runAtomicOps_valid ops _ (validByte_toU8 s0)
  · intro a o so fo v c n f h
    refine ⟨h, h, h, ?_, ?_, ?_⟩
    · by_cases hc : a.value = c.toU8 <;>
        simp [AtomicPacketState.compareExchange, atomicU8CompareExchange,
          cmpxchgPrev, hc] <;>
        first
          | simp [ofU8_toU8]
          | exact h
    · by_cases hc : a.value = c.toU8 <;>
        simp [AtomicPacketState.compareExchangeWeak, atomicU8CompareExchange,
          cmpxchgPrev, hc] <;>
        first
          | simp [ofU8_toU8]
          | exact h
    · cases hb : (PacketState.ofU8 a.value).bind f <;>
        simp [AtomicPacketState.fetchUpdate, cmpxchgPrev, hb] <;>
        exact h

/-- C10. `compare_exchange_weak` returns exactly what `compare_exchange`
returns, for all current/new arguments and all (even differing) memory
orderings — its body delegates to the strong `AtomicU8::compare_exchange` —
and in particular it never fails when the comparison succeeds. -/
theorem compareExchangeWeak_delegates :
    ∀ (a : AtomicPacketState) (current new : PacketState)
      (so fo so' fo' : AtomicOrdering),
      a.compareExchangeWeak current new so fo =
        a.compareExchange current new so' fo' ∧
      (a.value = current.toU8 →
        a.compareExchangeWeak current new so fo =
          (.ok (some current), ⟨new.toU8⟩)) := by
  intro a current new so fo so' fo'
  refine ⟨rfl, ?_⟩
  intro h
  simp [AtomicPacketState.compareExchangeWeak, atomicU8CompareExchange, h,
    ofU8_toU8]

/-- C7. Prefixed-packet decoding: on a nonempty stream the blanket
`decode_prefixed` reads exactly one ID byte; when that byte differs from the
declared `PREFIX` it fails with `UnknownPrefix { found, expected:
Some(PREFIX) }` having consumed exactly that 1 byte, and when it matches, the
remainder is decoded with the type's unprefixed decoder (its error wrapped in
`PrefixedDecodeError::Error`). -/
theorem prefixed_decode_spec :
    ∀ {ε α : Type} (pfx b : Nat) (rest : List Nat) (h : Nat) (fromInc : ε)
      (dec : ElemDecoder α ε),
      decodePrefixed pfx fromInc dec ⟨b :: rest, h⟩ =
        if b = pfx then
          ((dec ⟨rest, h + 1⟩).1.mapError PrefixedDecodeError.error,
            (dec ⟨rest, h + 1⟩).2)
        else
          (.error (.unknownPrefix b (some pfx)), ⟨rest, h + 1⟩) := by
  intro ε α pfx b rest h fromInc dec
  unfold decodePrefixed
  have hread : DecodeIter.read ⟨b :: rest, h⟩ = (.ok b, ⟨rest, h + 1⟩) := rfl
  rw [hread]
  by_cases hb : b = pfx
  · simp only [hb, beq_self_eq_true, if_true]
    cases hdec : dec ⟨rest, h + 1⟩ with
    | mk r it' => cases r <;> simp [Except.mapError]
  · have hbeq : (b == pfx) = false := by
      simp [hb]
    simp [hbeq, hb]

/-- C5, amended. Decoding a fixed-size-3 array from a stream encoding VarInt
length 2 followed by further bytes fails with `BadLength { len: 2, expected:
3 }`, but no element is decoded and the cursor has consumed exactly 2 bytes —
twice the one-byte length field (the `VarInt` decoder pulls the length byte
through the cursor and then skips one more byte), not the length field plus
the two elements' encodings. -/
theorem array3_badLength_consumes_two :
    ∀ (a : Nat) (rest : List Nat),
      arrayDecode 3 u8Decode ⟨2 :: a :: rest, 0⟩ =
        ⟨.error (.badLength 2 3), ⟨rest, 2⟩, List.replicate 3 none, []⟩ := by
  intro a rest
  rfl

/-- Characterization of the `TooLong` outcome of the `VarIntType::decode`
loop at accumulated shift `shift`: within the remaining shift budget
`w - shift`, the loop rejects exactly when the next `(w - shift) / 7 + 1`
bytes are all present and all carry the continuation bit. -/
theorem varIntLoop_tooLong_iff (w : Nat) :
    ∀ (bs : List Nat) (value shift consumed h : Nat), shift ≤ w →
      ((varIntLoop w bs value shift consumed h).1 = .error .tooLong ↔
        ((bs.take ((w - shift) / 7 + 1)).length = (w - shift) / 7 + 1 ∧
          ∀ b ∈ bs.take ((w - shift) / 7 + 1), b &&& 128 ≠ 0)) := by
  intro bs
  induction bs with
  | nil =>
    intro value shift consumed h hs
    simp [varIntLoop]
  | cons b rest ih =>
    intro value shift consumed h hs
    by_cases hb : b &&& 128 = 0
    · have hbeq : (b &&& 128 == 0) = true := by simp [hb]
      simp [varIntLoop, hbeq, List.take_succ_cons, hb]
    · have hbeq : (b &&& 128 == 0) = false := by simp [hb]
      by_cases hshift : shift + 7 > w
      · have hk0 : (w - shift) / 7 = 0 := Nat.div_eq_of_lt (by omega)
        simp [varIntLoop, hbeq, hshift, hk0, List.take_succ_cons]
        exact hb
      · have hs7 : shift + 7 ≤ w := by omega
        have hstep : varIntLoop w (b :: rest) value shift consumed h =
            varIntLoop w rest (value ||| (((b &&& 127) <<< shift) % 2 ^ w))
              (shift + 7) (consumed + 1) (h + 1) := by
          simp [varIntLoop, hbeq, hshift]
        rw [hstep, ih _ (shift + 7) _ _ hs7]
        have hk : (w - shift) / 7 + 1 = ((w - (shift + 7)) / 7 + 1) + 1 := by
          omega
        rw [hk, List.take_succ_cons]
        simp [hb]

/-- C3, amended. For a `w`-bit VarInt, decoding fails with `TooLong` exactly
when the first `ceil(w/7) = w / 7 + 1` bytes of the input (5 for 32-bit, 10
for 64-bit — not `ceil(w/7) + 1 = 6` and 11 as claimed) are all present and
all carry the continuation bit, i.e. exactly when the encoding is longer than
`ceil(w/7)` bytes; no encoding of at most `ceil(w/7)` bytes is rejected as
`TooLong`, and an over-long encoding is an error, never a larger number. -/
theorem varint_tooLong_iff :
    ∀ (w : Nat) (bs : List Nat) (h : Nat),
      ((varIntTypeDecode w ⟨bs, h⟩).1 = .error .tooLong ↔
        ((bs.take (w / 7 + 1)).length = w / 7 + 1 ∧
          ∀ b ∈ bs.take (w / 7 + 1), b &&& 128 ≠ 0)) := by
  intro w bs h
  have := varIntLoop_tooLong_iff w bs 0 0 0 h (Nat.zero_le w)
  simpa [varIntTypeDecode] using this

/-- The element loop of the array decoder, on a trajectory where `m` more
elements decode and the next fails: the loop stops at index `k + m`, wraps
the element error unchanged, writes exactly the slots `k..k+m`, and its
cleanup pass reads and drops exactly the slots below the failing index. -/
theorem arrayDecodeLoop_fail {α ε : Type} (dec : ElemDecoder α ε) :
    ∀ (m k rem : Nat) (arr : List (Option α)) (s sm sm' : DecodeIter)
      (vs : List α) (e : ε),
      decSteps dec m s = some (vs, sm) →
      dec sm = (.error e, sm') →
      m < rem →
      arrayDecodeLoop dec k rem arr s =
        ⟨.error (.item (k + m) e), sm', setFrom arr k vs,
          (List.range (k + m)).map fun j => (setFrom arr k vs).getD j none⟩ := by
  intro m
  induction m with
  | zero =>
    intro k rem arr s sm sm' vs e hsteps hfail hlt
    simp only [decSteps, Option.some.injEq, Prod.mk.injEq] at hsteps
    obtain ⟨h1, h2⟩ := hsteps
    subst h1
    subst h2
    cases rem with
    | zero => omega
    | succ r =>
      simp [arrayDecodeLoop, hfail, setFrom]
  | succ m ih =>
    intro k rem arr s sm sm' vs e hsteps hfail hlt
    simp only [decSteps] at hsteps
    cases hd : dec s with
    | mk r s1 =>
      rw [hd] at hsteps
      cases r with
      | error e0 => simp at hsteps
      | ok v =>
        simp only at hsteps
        cases hrec : decSteps dec m s1 with
        | none => rw [hrec] at hsteps; simp at hsteps
        | some p =>
          obtain ⟨vs', smf⟩ := p
          rw [hrec] at hsteps
          simp only [Option.some.injEq, Prod.mk.injEq] at hsteps
          obtain ⟨hvs, hsm⟩ := hsteps
          subst hvs
          subst hsm
          cases rem with
          | zero => omega
          | succ r =>
            have hlt' : m < r := by omega
            have hih := ih (k + 1) r (arr.set k (some v)) s1 smf sm' vs' e
              hrec hfail hlt'
            rw [show k + 1 + m = k + (m + 1) by omega] at hih
            rw [show setFrom (arr.set k (some v)) (k + 1) vs'
              = setFrom arr k (v :: vs') from rfl] at hih
            simpa only [arrayDecodeLoop, hd] using hih

/-- Setting the slot just past a prefix of an appended list edits the head of
the second part. -/
theorem set_append_length {α : Type} (p l : List (Option α)) (a : Option α) :
    (p ++ l).set p.length a = p ++ l.set 0 a := by
  induction p with
  | nil => simp
  | cons x p ih => simpa using ih

/-- Writing `vs` into the uninitialized suffix of a partially-written slot
array fills the next `vs.length` slots and leaves the rest untouched. -/
theorem setFrom_append_replicate {α : Type} :
    ∀ (vs : List α) (p : List (Option α)) (M : Nat), vs.length ≤ M →
      setFrom (p ++ List.replicate M none) p.length vs =
        p ++ (vs.map some ++ List.replicate (M - vs.length) none) := by
  intro vs
  induction vs with
  | nil =>
    intro p M h
    simp [setFrom]
  | cons v vs ih =>
    intro p M h
    cases M with
    | zero => simp at h
    | succ M' =>
      have hset : (p ++ List.replicate (M' + 1) (none : Option α)).set
          p.length (some v) = (p ++ [some v]) ++ List.replicate M' none := by
        rw [show List.replicate (M' + 1) (none : Option α)
          = none :: List.replicate M' none from rfl, set_append_length]
        simp
      show setFrom ((p ++ List.replicate (M' + 1) none).set p.length (some v))
          (p.length + 1) vs = _
      rw [hset]
      rw [show p.length + 1 = (p ++ [some v]).length by simp]
      rw [ih (p ++ [some v]) M' (by simpa using h)]
      simp

/-- Reading the first `L.length` positions of `L ++ B` recovers `L`. -/
theorem range_map_getD {β : Type} :
    ∀ (L B : List β) (d : β),
      (List.range L.length).map (fun j => (L ++ B).getD j d) = L := by
  intro L
  induction L with
  | nil =>
    intro B d
    simp
  | cons x L ih =>
    intro B d
    rw [List.length_cons, List.range_succ_eq_map]
    simp only [List.map_cons, List.map_map, List.cons_append,
      List.getD_cons_zero]
    have : ∀ j, ((fun j => (x :: (L ++ B)).getD j d) ∘ Nat.succ) j
        = (L ++ B).getD j d := by
      intro j
      simp [List.getD_cons_succ]
    rw [List.map_congr_left fun j _ => this j, ih B d]

/-- C4. Fixed-array cleanup: when the length check has passed and decoding
element `i` (with `0 ≤ i < N`) fails after elements `0..i` decoded to `vs`,
the decoder returns `Item { index: i, err }` with the element's error
unchanged, the slots at indices `≥ i` were never written (still `none`), and
the cleanup pass drops exactly the `i` previously constructed elements, each
exactly once, in order. -/
theorem arrayDecode_cleanup {α ε : Type} :
    ∀ (N : Nat) (dec : ElemDecoder α ε) (it s0 si si' : DecodeIter)
      (i : Nat) (vs : List α) (e : ε),
      varIntPacketDecode 32 it = (.ok N, s0) →
      decSteps dec i s0 = some (vs, si) →
      dec si = (.error e, si') →
      i < N →
      arrayDecode N dec it =
        ⟨.error (.item i e), si',
          vs.map some ++ List.replicate (N - i) none,
          vs.map some⟩ := by
  intro N dec it s0 si si' i vs e hlen hsteps hfail hiN
  have hvlen : vs.length = i := decSteps_length hsteps
  have hstep : arrayDecode N dec it
      = arrayDecodeLoop dec 0 N (List.replicate N none) s0 := by
    simp [arrayDecode, hlen]
  rw [hstep]
  have hloop := arrayDecodeLoop_fail dec i 0 N (List.replicate N none) s0 si
    si' vs e hsteps hfail hiN
  rw [hloop]
  have hsf : setFrom (List.replicate N (none : Option α)) 0 vs
      = vs.map some ++ List.replicate (N - i) none := by
    have := setFrom_append_replicate vs ([] : List (Option α)) N (by omega)
    simpa [hvlen] using this
  have hdrops : (List.range i).map
      (fun j => (vs.map some ++ List.replicate (N - i) none).getD j none)
      = vs.map some := by
    have hl : (vs.map some).length = i := by simp [hvlen]
    have hr := range_map_getD (vs.map some) (List.replicate (N - i) none) none
    rw [hl] at hr
    exact hr
  simp only [Nat.zero_add, hsf, hdrops]

/-- C4, witness: decoding `[u16; 4]` from the stream
`[0x04, 0x63, 0x01, 0x02, 0x03, 0x04, 0x05]` — length 4 (the `0x63` is eaten
by the VarInt decoder's double consumption), elements `0x0102` and `0x0304`,
then a truncated element — fails at index 2 with the elements at indices 0
and 1 dropped exactly once each and slots 2, 3 never written. -/
theorem arrayDecode_cleanup_witness :
    arrayDecode 4 u16Decode ⟨[4, 99, 1, 2, 3, 4, 5], 0⟩ =
      ⟨.error (.item 2 .mk), ⟨[], 6⟩,
        [some 258, some 772, none, none], [some 258, some 772]⟩ := by
  have h := arrayDecode_cleanup 4 u16Decode ⟨[4, 99, 1, 2, 3, 4, 5], 0⟩
    ⟨[1, 2, 3, 4, 5], 2⟩ ⟨[5], 6⟩ ⟨[], 6⟩ 2 [258, 772] .mk
    (by decide) (by decide) (by decide) (by decide)
  simpa using h

/-- C8, amended. For every `DecodeIter` operation (`read`, `next`,
`read_vec`, `read_arr`, `read_buf`, `skip`): the `consumed()` counter never
decreases, and a successful call advances it by exactly the number of bytes
taken from the underlying source; but a failed `read_vec`/`read_arr`/
`read_buf`/`skip` leaves the counter unchanged even though the call drained
the source's remaining bytes (`read` and `next` take no bytes when they
fail, so for them the counter always reflects the bytes taken). -/
theorem decodeIter_counter_contract :
    ∀ (it : DecodeIter) (count n bufLen : Nat),
      CounterContract it it.read ∧
      (it.head ≤ it.next.2.head ∧
        it.next.2.head = it.head + (it.iter.length - it.next.2.iter.length)) ∧
      CounterContract it (it.readVec count) ∧
      CounterContract it (it.readArr n) ∧
      CounterContract it (it.readBuf bufLen) ∧
      CounterContract it (it.skip count) := by
  intro it count n bufLen
  refine ⟨?_, ?_, ?_, ?_, ?_, ?_⟩
  · obtain ⟨l, h⟩ := it
    cases l with
    | nil => simp [DecodeIter.read, CounterContract, Except.isOk, Except.toBool]
    | cons b rest =>
      simp [DecodeIter.read, CounterContract, Except.isOk, Except.toBool]
  · obtain ⟨l, h⟩ := it
    cases l with
    | nil => simp [DecodeIter.next]
    | cons b rest =>
      simp [DecodeIter.next]
  · cases hte : takeExact count it.iter with
    | some p =>
      obtain ⟨v, rem⟩ := p
      obtain ⟨hv, hl⟩ := takeExact_some hte
      simp [DecodeIter.readVec, hte, CounterContract, Except.isOk, Except.toBool]
      omega
    | none => simp [DecodeIter.readVec, hte, CounterContract, Except.isOk, Except.toBool]
  · cases hte : takeExact n it.iter with
    | some p =>
      obtain ⟨v, rem⟩ := p
      obtain ⟨hv, hl⟩ := takeExact_some hte
      simp [DecodeIter.readArr, hte, CounterContract, Except.isOk, Except.toBool]
      omega
    | none => simp [DecodeIter.readArr, hte, CounterContract, Except.isOk, Except.toBool]
  · cases hte : takeExact bufLen it.iter with
    | some p =>
      obtain ⟨v, rem⟩ := p
      obtain ⟨hv, hl⟩ := takeExact_some hte
      simp [DecodeIter.readBuf, hte, CounterContract, Except.isOk, Except.toBool]
      omega
    | none => simp [DecodeIter.readBuf, hte, CounterContract, Except.isOk, Except.toBool]
  · cases hte : takeExact count it.iter with
    | some p =>
      obtain ⟨v, rem⟩ := p
      obtain ⟨hv, hl⟩ := takeExact_some hte
      simp [DecodeIter.skip, hte, CounterContract, Except.isOk, Except.toBool]
      omega
    | none => simp [DecodeIter.skip, hte, CounterContract, Except.isOk, Except.toBool]

/-- C8, counterexample. `read_vec(2)` on a one-byte source fails with
`Incomplete` after pulling that byte from the underlying iterator, yet the
`consumed()` counter is unchanged (`self.head += count` is never reached):
the counter did not increase by the number of bytes actually taken. -/
theorem readVec_counter_counterexample :
    DecodeIter.readVec ⟨[7], 0⟩ 2 = (.error .mk, ⟨[], 0⟩) ∧
    ([7] : List Nat).length - (DecodeIter.readVec ⟨[7], 0⟩ 2).2.iter.length = 1 ∧
    (DecodeIter.readVec ⟨[7], 0⟩ 2).2.head - (0 : Nat) = 0 ∧
    (0 : Nat) ≠ 1 := by
  decide

